import Mathlib

/-!
Verification of the rdmNames library (`rdmNames/__init__.py`) against its
natural-language specification.

Shallow embedding conventions:
* Python floats carrying cumulative weights are modelled as rationals `ℚ`.
* `random.random()` is modelled as an externally supplied rational `r`
  with `0 ≤ r < 1`; `random.choice`/`np.random.choice` are modelled as an
  externally supplied index stream, reduced modulo the list length (the
  library always selects a valid element of the list it samples from).
* A text file is modelled as its list of lines, each line already split
  into whitespace-separated fields (`List (List String)`), matching
  `line.strip().split()` / `line.split()`.
* Python `float(str)` is an external primitive; it is modelled as an
  abstract parameter `fval : String → Option ℚ` (`none` models the
  `ValueError` that `float` raises on a non-numeric field).
* Fallible code (`raise RuntimeError`) is modelled with `Except String`.
-/

/-- Embeds `NameData = List[Tuple[str, float]]` from the source. -/
abbrev NameData := List (String × ℚ)

/-! ### `bisect.bisect_right`

CPython's `bisect_right(a, x)` runs the classic binary-search loop
(`lo, hi = 0, len(a)`; while `lo < hi`: `mid = (lo+hi)//2`;
`if x < a[mid]: hi = mid else: lo = mid+1`; return `lo`).
The loop is embedded with explicit fuel so that it is structurally
recursive and kernel-evaluable; `a.length + 1` units of fuel always
suffice because `hi - lo` strictly decreases each iteration. -/
def bisectRightAux (a : List ℚ) (x : ℚ) : Nat → Nat → Nat → Nat
  | 0, lo, _ => lo
  | fuel + 1, lo, hi =>
    if lo < hi then
      let mid := (lo + hi) / 2
      if x < a.getD mid 0 then bisectRightAux a x fuel lo mid
      else bisectRightAux a x fuel (mid + 1) hi
    else lo

/-- Runs `bisect.bisect_right(a, x)` over the whole list. -/
def bisect_right (a : List ℚ) (x : ℚ) : Nat :=
  bisectRightAux a x (a.length + 1) 0 a.length

/-- Line 91 of the source: `target = random.random() * 90`.  The drawn
target is the random value scaled by the fixed literal `90`; it takes no
table argument because the source uses none. -/
def drawnTarget (r : ℚ) : ℚ := r * 90

/-- Embeds `_get_random_name(names)` (lines 85–100): empty table returns `""`;
otherwise draw `target`, take the cumulative column, binary-search it and
return the name at the clamped index `min idx (len - 1)`. -/
def _get_random_name (names : NameData) (r : ℚ) : String :=
  if names.isEmpty then ""
  else
    let target := drawnTarget r
    let cumulatives := names.map Prod.snd
    let idx := bisect_right cumulatives target
    (names.getD (min idx (names.length - 1)) ("", 0)).1

/-- Spec-side definition (§4.2 of the spec): the maximum cumulative
weight `W` present in a table. -/
def maxCumWeight (names : NameData) : ℚ :=
  (names.map Prod.snd).foldr max 0

/-- Spec-side definition (claim C3's wording): the name of the first
entry whose cumulative weight is `≥ t`. -/
def firstEntryGE (names : NameData) (t : ℚ) : Option String :=
  (names.find? (fun p => decide (t ≤ p.2))).map Prod.fst

/-! ### Invariant proof for the binary search -/

theorem bisectRightAux_spec (a : List ℚ) (x : ℚ)
    (hs : ∀ i j, i ≤ j → j < a.length → a.getD i 0 ≤ a.getD j 0) :
    ∀ fuel lo hi, hi - lo < fuel → lo ≤ hi → hi ≤ a.length →
    (∀ i, i < lo → a.getD i 0 ≤ x) →
    (∀ i, hi ≤ i → i < a.length → x < a.getD i 0) →
    (∀ i, i < bisectRightAux a x fuel lo hi → a.getD i 0 ≤ x) ∧
      (∀ i, bisectRightAux a x fuel lo hi ≤ i → i < a.length →
        x < a.getD i 0) ∧
      lo ≤ bisectRightAux a x fuel lo hi ∧
      bisectRightAux a x fuel lo hi ≤ hi := by
  intro fuel
  induction fuel with
  | zero => intro lo hi hfuel; omega
  | succ n ih =>
    intro lo hi hfuel hlohi hhilen h1 h2
    by_cases hlh : lo < hi
    · have hmidlt : (lo + hi) / 2 < hi := by omega
      have hmidge : lo ≤ (lo + hi) / 2 := by omega
      by_cases hcmp : x < a.getD ((lo + hi) / 2) 0
      · have hrec := ih lo ((lo + hi) / 2) (by omega) (by omega) (by omega)
          h1 (fun i hi1 hi2 =>
            lt_of_lt_of_le hcmp (hs ((lo + hi) / 2) i hi1 hi2))
        simp only [bisectRightAux, if_pos hlh, if_pos hcmp]
        exact ⟨hrec.1, hrec.2.1, hrec.2.2.1, le_trans hrec.2.2.2 (by omega)⟩
      · have hmx : a.getD ((lo + hi) / 2) 0 ≤ x := le_of_not_lt hcmp
        have hrec := ih ((lo + hi) / 2 + 1) hi (by omega) (by omega) hhilen
          (fun i hi1 =>
            le_trans (hs i ((lo + hi) / 2) (by omega) (by omega)) hmx)
          h2
        simp only [bisectRightAux, if_pos hlh, if_neg hcmp]
        exact ⟨hrec.1, hrec.2.1, le_trans (by omega) hrec.2.2.1, hrec.2.2.2⟩
    · simp only [bisectRightAux, if_neg hlh]
      exact ⟨h1, fun i hi1 hi2 => h2 i (by omega) hi2, le_refl lo, hlohi⟩

theorem bisect_right_spec (a : List ℚ) (x : ℚ)
    (hs : ∀ i j, i ≤ j → j < a.length → a.getD i 0 ≤ a.getD j 0) :
    (∀ i, i < bisect_right a x → a.getD i 0 ≤ x) ∧
      (∀ i, bisect_right a x ≤ i → i < a.length → x < a.getD i 0) ∧
      bisect_right a x ≤ a.length := by
  have h := bisectRightAux_spec a x hs (a.length + 1) 0 a.length
    (by omega) (by omega) (le_refl _) (fun i hi => by omega)
    (fun i hi1 hi2 => by omega)
  exact ⟨h.1, h.2.1, h.2.2.2⟩

/-! ### C7 and C8: sampler degenerate case and closure -/

/-- C7: Sampling from an empty frequency table returns the empty
string as a sentinel value (it does not index into the table at all). -/
theorem empty_table_returns_empty_sentinel (r : ℚ) :
    _get_random_name [] r = "" := rfl

/-- C8: For every non-empty frequency table and every outcome of the
randomness source, the weighted sampler returns the name of some entry
present in the table: the clamped index `min idx (len - 1)` is always in
bounds. -/
theorem sampler_closure (names : NameData) (r : ℚ) (h : names ≠ []) :
    _get_random_name names r ∈ names.map Prod.fst := by
  have hne : names.isEmpty = false := by
    cases names with
    | nil => exact absurd rfl h
    | cons a l => rfl
  have hlen : 0 < names.length := List.length_pos.mpr h
  unfold _get_random_name
  rw [hne]
  simp only [Bool.false_eq_true, if_false]
  have hidx : min (bisect_right (names.map Prod.snd) (drawnTarget r))
      (names.length - 1) < names.length := by omega
  rw [List.getD_eq_getElem names ("", 0) hidx]
  exact List.mem_map_of_mem Prod.fst (List.getElem_mem _)

/-- C8 witness: The closure theorem applied at a concrete table and
random outcome. -/
theorem sampler_closure_witness :
    _get_random_name [("Ana", 30), ("Bea", 60), ("Cid", 90)] 0 ∈
      ([("Ana", (30 : ℚ)), ("Bea", 60), ("Cid", 90)].map Prod.fst) :=
  sampler_closure [("Ana", 30), ("Bea", 60), ("Cid", 90)] 0 (by decide)

/-! ### C2: the drawn value uses a fixed scale, not the table's maximum -/

/-- C2 counterexample: For the table `[("Solo", 45)]` the maximum
cumulative weight is `W = 45`, yet at random outcome `r = 3/4` the
sampler's drawn value is `(3/4) * 90 = 135/2`, which is not `< W`: the
drawn value is not confined to `[0, W)`. -/
theorem drawn_value_not_table_max :
    maxCumWeight [("Solo", 45)] = 45 ∧
      drawnTarget (3 / 4) = 135 / 2 ∧
      ¬ drawnTarget (3 / 4) < maxCumWeight [("Solo", 45)] := by
  refine ⟨by norm_num [maxCumWeight], ?_, by norm_num [drawnTarget, maxCumWeight]⟩
  unfold drawnTarget
  norm_num

/-- C2 amended: The drawn value is `r * 90` with the fixed literal
`90`, taking no table argument at all: for every random outcome
`r ∈ [0, 1)` it lies in the fixed interval `[0, 90)`, whatever the
table's own maximum cumulative weight is. -/
theorem drawn_value_in_fixed_interval (r : ℚ) (h0 : 0 ≤ r) (h1 : r < 1) :
    0 ≤ drawnTarget r ∧ drawnTarget r < 90 := by
  unfold drawnTarget
  constructor <;> nlinarith

/-- C2 amended witness: The amended theorem applied at `r = 1/2`. -/
theorem drawn_value_in_fixed_interval_witness :
    (0 : ℚ) ≤ 1 / 2 ∧ (1 / 2 : ℚ) < 1 ∧
      (0 ≤ drawnTarget (1 / 2) ∧ drawnTarget (1 / 2) < 90) :=
  ⟨by norm_num, by norm_num,
    drawn_value_in_fixed_interval (1 / 2) (by norm_num) (by norm_num)⟩

/-! ### C3: which entry the binary search selects -/

/-- On a `≤`-sorted list, `getD` is monotone in the index. -/
theorem sorted_getD_mono (l : List ℚ) (hs : l.Sorted (· ≤ ·)) :
    ∀ i j, i ≤ j → j < l.length → l.getD i 0 ≤ l.getD j 0 := by
  intro i j hij hj
  have hi : i < l.length := lt_of_le_of_lt hij hj
  rw [List.getD_eq_getElem l 0 hi, List.getD_eq_getElem l 0 hj]
  rcases Nat.eq_or_lt_of_le hij with h | h
  · subst h; exact le_refl _
  · have := hs.rel_get_of_lt (a := ⟨i, hi⟩) (b := ⟨j, hj⟩) h
    simpa [List.get_eq_getElem] using this

/-- Lemma: `find?` returns the element at the first index satisfying the
predicate. -/
theorem find?_eq_getD_of_first {α : Type} (d : α) (p : α → Bool) :
    ∀ (l : List α) (k : Nat), k < l.length →
      (∀ i, i < k → p (l.getD i d) = false) → p (l.getD k d) = true →
      l.find? p = some (l.getD k d) := by
  intro l
  induction l with
  | nil => intro k hk; simp at hk
  | cons a t ih =>
    intro k hk hbefore hhit
    cases k with
    | zero =>
      rw [List.getD_cons_zero] at hhit ⊢
      exact List.find?_cons_of_pos t hhit
    | succ m =>
      have ha : p a = false := by
        have := hbefore 0 (Nat.succ_pos m)
        rwa [List.getD_cons_zero] at this
      rw [List.getD_cons_succ]
      rw [List.find?_cons_of_neg t (by simp [ha])]
      exact ih m (by simpa using hk)
        (fun i hi => by
          have := hbefore (i + 1) (by omega)
          rwa [List.getD_cons_succ] at this)
        (by rwa [List.getD_cons_succ] at hhit)

/-- The cumulative column read through `getD` agrees with the table. -/
theorem getD_map_snd (names : NameData) (i : Nat) (hi : i < names.length) :
    (names.map Prod.snd).getD i 0 = (names.getD i ("", 0)).2 := by
  rw [List.getD_eq_getElem (names.map Prod.snd) 0 (by simpa using hi),
    List.getD_eq_getElem names ("", 0) hi, List.getElem_map]

/-- C3 counterexample: At the boundary drawn value `t = 30`
(random outcome `r = 1/3`, since `30 = (1/3) * 90`), the first entry of
`[("Ana",30),("Bea",60),("Cid",90)]` whose cumulative weight is `≥ t` is
`"Ana"`, but the sampler returns `"Bea"`: `bisect_right` skips entries
whose cumulative weight equals the drawn value exactly. -/
theorem sampler_boundary_counterexample :
    drawnTarget (1 / 3) = 30 ∧
      firstEntryGE [("Ana", 30), ("Bea", 60), ("Cid", 90)] 30 = some "Ana" ∧
      _get_random_name [("Ana", 30), ("Bea", 60), ("Cid", 90)] (1 / 3) =
        "Bea" := by
  refine ⟨?_, by norm_num [firstEntryGE, List.find?], ?_⟩
  · unfold drawnTarget
    norm_num
  · norm_num [_get_random_name, bisect_right, bisectRightAux, drawnTarget]

/-- Unfolding lemma: on a non-empty table the sampler reads the clamped
binary-search index. -/
theorem _get_random_name_nonempty (names : NameData) (r : ℚ)
    (h : names.isEmpty = false) :
    _get_random_name names r =
      (names.getD
        (min (bisect_right (names.map Prod.snd) (drawnTarget r))
          (names.length - 1)) ("", 0)).1 := by
  unfold _get_random_name
  rw [h]
  simp only [Bool.false_eq_true, if_false]

/-- C3 amended: For every non-empty table sorted ascending by
cumulative weight and every drawn value `t = r * 90`, the sampler returns
the name of the first entry whose cumulative weight is *strictly greater*
than `t` (so an entry whose weight equals `t` exactly is skipped), and
clamps to the last entry when no cumulative weight exceeds `t`; in
particular for `[("Ana",30),("Bea",60),("Cid",90)]` and drawn value
`45.0` it returns `"Bea"`. -/
theorem sampler_selects_first_strictly_above (names : NameData) (r : ℚ)
    (hne : names ≠ [])
    (hs : (names.map Prod.snd).Sorted (· ≤ ·)) :
    _get_random_name names r =
      match names.find? (fun p => decide (drawnTarget r < p.2)) with
      | some p => p.1
      | none => (names.getD (names.length - 1) ("", 0)).1 := by
  have hlen : 0 < names.length := List.length_pos.mpr hne
  have hEmpty : names.isEmpty = false := by
    cases names with
    | nil => exact absurd rfl hne
    | cons a l => rfl
  have hmono := sorted_getD_mono (names.map Prod.snd) hs
  have hspec := bisect_right_spec (names.map Prod.snd) (drawnTarget r) hmono
  rw [_get_random_name_nonempty names r hEmpty]
  rcases lt_or_eq_of_le (by simpa using hspec.2.2 :
      bisect_right (names.map Prod.snd) (drawnTarget r) ≤ names.length)
    with hlt | heq
  · have hfind : names.find? (fun p => decide (drawnTarget r < p.2)) =
        some (names.getD
          (bisect_right (names.map Prod.snd) (drawnTarget r)) ("", 0)) := by
      apply find?_eq_getD_of_first
      · exact hlt
      · intro i hik
        have hi : i < names.length := lt_trans hik hlt
        have hle := hspec.1 i hik
        rw [getD_map_snd names i hi] at hle
        simpa using not_lt.mpr hle
      · have hgt := hspec.2.1 _ (le_refl _) (by simpa using hlt)
        rw [getD_map_snd names _ hlt] at hgt
        simpa using hgt
    rw [hfind]
    have hmin : min (bisect_right (names.map Prod.snd) (drawnTarget r))
        (names.length - 1) =
        bisect_right (names.map Prod.snd) (drawnTarget r) :=
      Nat.min_eq_left (by omega)
    rw [hmin]
  · have hfind : names.find? (fun p => decide (drawnTarget r < p.2)) =
        none := by
      rw [List.find?_eq_none]
      intro x hx
      rcases List.mem_iff_getElem.mp hx with ⟨i, hi, rfl⟩
      have hle := hspec.1 i (by omega)
      rw [getD_map_snd names i hi, List.getD_eq_getElem names ("", 0) hi]
        at hle
      simpa using not_lt.mpr hle
    rw [hfind]
    have hmin : min (bisect_right (names.map Prod.snd) (drawnTarget r))
        (names.length - 1) = names.length - 1 :=
      Nat.min_eq_right (by omega)
    rw [hmin]

/-- C3 amended witness: The amended theorem applied to the spec's own
scenario table at drawn value `45 = (1/2) * 90`: the first entry with
cumulative weight strictly above `45` is `("Bea", 60)`, and the sampler
indeed returns `"Bea"`. -/
theorem sampler_selects_first_strictly_above_witness :
    _get_random_name [("Ana", 30), ("Bea", 60), ("Cid", 90)] (1 / 2) =
      "Bea" := by
  have h := sampler_selects_first_strictly_above
    [("Ana", 30), ("Bea", 60), ("Cid", 90)] (1 / 2) (by decide)
    (by norm_num [List.Sorted])
  rw [h]
  norm_num [List.find?, drawnTarget]

/-! ### Frequency-table loader `_load_names` (lines 59–83) -/

/-- Stable insertion of an entry into a weight-sorted table: the entry
goes before the first entry of greater-or-equal weight, so it precedes
every equal-weight entry that originally came later. -/
def insertByWeight (p : String × ℚ) : NameData → NameData
  | [] => [p]
  | q :: rest =>
    if p.2 ≤ q.2 then p :: q :: rest else q :: insertByWeight p rest

/-- Embeds `names.sort(key=lambda x: x[1])` (line 77).  Python's sort is
stable, and a stable sort's output is determined by the key order and the
original order alone, so stable insertion sort computes the same list. -/
def sortByWeight : NameData → NameData
  | [] => []
  | p :: rest => insertByWeight p (sortByWeight rest)

/-- Embeds the parsing loop of `_load_names` (lines 69–74): a line with at
least 3 fields contributes `(parts[0], float(parts[2]))`; any other line
is skipped.  A `none` from `fval` models `float` raising `ValueError`,
which `_load_names` surfaces as a `RuntimeError`. -/
def parseNameLines (fval : String → Option ℚ) :
    List (List String) → Except String NameData
  | [] => .ok []
  | parts :: rest =>
    if 3 ≤ parts.length then
      match fval (parts.getD 2 "") with
      | some w =>
        (parseNameLines fval rest).map (fun ns => (parts.getD 0 "", w) :: ns)
      | none => .error "RuntimeError"
    else parseNameLines fval rest

/-- Embeds `_NameCache` (lines 26–46): the filename-keyed mapping, as an
association list read through its most recent binding (observationally
the same `get` as the Python dict). -/
def NameCache := List (String × NameData)

/-- Embeds `_NameCache.get`. -/
def cacheGet (c : NameCache) (filename : String) : Option NameData :=
  (List.find? (fun p => decide (p.1 = filename)) c).map Prod.snd

/-- Embeds `_NameCache.set`. -/
def cacheSet (c : NameCache) (filename : String) (d : NameData) : NameCache :=
  (filename, d) :: c

/-- Embeds the cache-miss body of `_load_names` (lines 66–81): parse the
file, sort the entries by cumulative weight, store the table in the cache
and return it. -/
def loadFresh (files : String → List (List String))
    (fval : String → Option ℚ) (c : NameCache) (filename : String) :
    Except String (NameData × NameCache) :=
  match parseNameLines fval (files filename) with
  | .error e => .error e
  | .ok ns => .ok (sortByWeight ns, cacheSet c filename (sortByWeight ns))

/-- Embeds `_load_names(filename)` (lines 59–83) with the process state
explicit: `files` maps a filename to the field-split lines of that file.
Python's `if cached := _name_cache.get(filename):` takes the cached table
only when it is truthy — present *and* non-empty. -/
def _load_names (files : String → List (List String))
    (fval : String → Option ℚ) (c : NameCache) (filename : String) :
    Except String (NameData × NameCache) :=
  match cacheGet c filename with
  | some cached =>
    if cached.isEmpty then loadFresh files fval c filename
    else .ok (cached, c)
  | none => loadFresh files fval c filename

/-- Length is preserved by stable insertion. -/
theorem insertByWeight_length (p : String × ℚ) (l : NameData) :
    (insertByWeight p l).length = l.length + 1 := by
  induction l with
  | nil => rfl
  | cons q rest ih =>
    unfold insertByWeight
    by_cases h : p.2 ≤ q.2
    · simp [h]
    · simp [h, ih]

/-- Length is preserved by the sort. -/
theorem sortByWeight_length (l : NameData) :
    (sortByWeight l).length = l.length := by
  induction l with
  | nil => rfl
  | cons p rest ih =>
    unfold sortByWeight
    rw [insertByWeight_length, ih, List.length_cons]

/-- Lemma: a successful parse has one entry per line with at least 3
fields. -/
theorem parseNameLines_length (fval : String → Option ℚ) :
    ∀ (lines : List (List String)) (t : NameData),
      parseNameLines fval lines = .ok t →
      t.length = lines.countP (fun parts => decide (3 ≤ parts.length)) := by
  intro lines
  induction lines with
  | nil =>
    intro t h
    simp only [parseNameLines] at h
    cases h
    rfl
  | cons parts rest ih =>
    intro t h
    simp only [parseNameLines] at h
    by_cases hlen : 3 ≤ parts.length
    · rw [if_pos hlen] at h
      cases hfv : fval (parts.getD 2 "") with
      | none => rw [hfv] at h; cases h
      | some w =>
        rw [hfv] at h
        cases hrest : parseNameLines fval rest with
        | error e => rw [hrest] at h; cases h
        | ok ns =>
          rw [hrest] at h
          cases h
          simp [List.countP_cons, hlen, ih ns hrest]
    · rw [if_neg hlen] at h
      simp [List.countP_cons, hlen, ih t h]

/-- C4 counterexample: the two-field line `mary 1` is dropped by the
loader — `_load_names` returns an *empty* table for a file holding only
that line (and caches it), not a one-entry name-only table.  The weight
parser is never even consulted (`fval` is the everywhere-failing one). -/
theorem short_line_dropped :
    parseNameLines (fun _ => none) [["mary", "1"]] = .ok [] ∧
      _load_names (fun _ => [["mary", "1"]]) (fun _ => none) [] "f" =
        .ok ([], [("f", [])]) :=
  ⟨rfl, rfl⟩

/-- C4 amended: a line with fewer than 3 whitespace-separated fields is
discarded by the frequency-table loader (there is no name-only fallback):
a table loaded from a fresh cache has exactly one entry per line with at
least 3 fields. -/
theorem loader_drops_short_lines (files : String → List (List String))
    (fval : String → Option ℚ) (filename : String) (t : NameData)
    (c' : NameCache)
    (h : _load_names files fval [] filename = .ok (t, c')) :
    t.length =
      (files filename).countP (fun parts => decide (3 ≤ parts.length)) := by
  unfold _load_names at h
  simp only [cacheGet, List.find?] at h
  unfold loadFresh at h
  cases hp : parseNameLines fval (files filename) with
  | error e => rw [hp] at h; cases h
  | ok ns =>
    rw [hp] at h
    cases h
    rw [sortByWeight_length]
    exact parseNameLines_length fval (files filename) ns hp

/-- C4 amended witness: the amended theorem applied to a concrete
two-line file; only the 3-field line survives. -/
theorem loader_drops_short_lines_witness :
    ([("Ana", (30 : ℚ))] : NameData).length =
      ([["mary", "1"], ["Ana", "2", "30"]].countP
        (fun parts => decide (3 ≤ parts.length))) :=
  loader_drops_short_lines (fun _ => [["mary", "1"], ["Ana", "2", "30"]])
    (fun s => if s = "30" then some 30 else none) "f"
    [("Ana", 30)] [("f", [("Ana", 30)])] rfl

/-- Lemma: `cacheGet` reads back the binding `cacheSet` just wrote. -/
theorem cacheGet_cacheSet (c : NameCache) (filename : String)
    (d : NameData) :
    cacheGet (cacheSet c filename d) filename = some d := by
  simp [cacheGet, cacheSet, List.find?]

/-- Lemma: after a fresh load succeeds, reloading from the resulting
cache state returns the very same table. -/
theorem loadFresh_then_reload (files : String → List (List String))
    (fval : String → Option ℚ) (c : NameCache) (filename : String)
    (t : NameData) (c₁ : NameCache)
    (h : loadFresh files fval c filename = .ok (t, c₁)) :
    ∃ c₂, _load_names files fval c₁ filename = .ok (t, c₂) := by
  unfold loadFresh at h
  cases hp : parseNameLines fval (files filename) with
  | error e => rw [hp] at h; cases h
  | ok ns =>
    rw [hp] at h
    cases h
    unfold _load_names
    simp only [cacheGet_cacheSet]
    by_cases he : (sortByWeight ns).isEmpty
    · rw [if_pos he]
      unfold loadFresh
      rw [hp]
      exact ⟨_, rfl⟩
    · rw [if_neg he]
      exact ⟨_, rfl⟩

/-- C9: loading the same source file twice yields equal in-memory tables.
If a call to `_load_names` (from any cache state, the file system
unchanged between the calls) returns table `t`, then the next call for
the same filename — run on the cache state the first call left behind —
returns the same table `t`; so every later call does too.  A non-empty
`t` is served straight from the cache; an empty `t` fails Python's
truthiness test and is re-parsed, but re-parsing the same lines
reproduces it. -/
theorem load_twice_equal (files : String → List (List String))
    (fval : String → Option ℚ) (c : NameCache) (filename : String)
    (t : NameData) (c₁ : NameCache)
    (h : _load_names files fval c filename = .ok (t, c₁)) :
    ∃ c₂, _load_names files fval c₁ filename = .ok (t, c₂) := by
  unfold _load_names at h
  cases hg : cacheGet c filename with
  | some cached =>
    simp only [hg] at h
    by_cases he : cached.isEmpty
    · rw [if_pos he] at h
      exact loadFresh_then_reload files fval c filename t c₁ h
    · rw [if_neg he] at h
      cases h
      refine ⟨c, ?_⟩
      unfold _load_names
      simp only [hg]
      rw [if_neg he]
  | none =>
    simp only [hg] at h
    exact loadFresh_then_reload files fval c filename t c₁ h

/-- C9 witness: the idempotence theorem applied to a concrete one-line
file, starting from the empty cache; the second call reproduces the
table `[("ana", 30)]`. -/
theorem load_twice_equal_witness :
    ∃ c₂, _load_names (fun _ => [["ana", "1", "30"]])
        (fun s => if s = "30" then some 30 else none)
        [("f", [("ana", 30)])] "f" = .ok ([("ana", 30)], c₂) :=
  load_twice_equal (fun _ => [["ana", "1", "30"]])
    (fun s => if s = "30" then some 30 else none) [] "f"
    [("ana", 30)] [("f", [("ana", 30)])] rfl

/-! ### `_load_all_names` and the public entry points (lines 102–180) -/

/-- Embeds Python `str.capitalize()` for the ASCII name tokens in the
data files: first character uppercased, every remaining character
lowercased. -/
def capitalize (s : String) : String :=
  match s.data with
  | [] => ""
  | c :: cs => String.mk (c.toUpper :: cs.map Char.toLower)

/-- Embeds `line.split()[0].capitalize()` for one line; `split()[0]` on a
blank line raises `IndexError`, which `_load_all_names` surfaces as a
`RuntimeError`. -/
def firstTokenCapitalized (parts : List String) : Except String String :=
  match parts with
  | [] => .error "IndexError"
  | tok :: _ => .ok (capitalize tok)

/-- Embeds the comprehension
`[line.split()[0].capitalize() for line in f]` (lines 159, 163, 167). -/
def loadNameList : List (List String) → Except String (List String)
  | [] => .ok []
  | parts :: rest =>
    match firstTokenCapitalized parts with
    | .error e => .error e
    | .ok name => (loadNameList rest).map (fun ns => name :: ns)

/-- Embeds `_load_all_names` (lines 144–174): loads the male, female and
last-name files and sets `FIRST_NAMES = male_names + female_names` and
`LAST_NAMES` to the last-name list. -/
def _load_all_names (maleLines femaleLines lastLines : List (List String)) :
    Except String (List String × List String) :=
  match loadNameList maleLines with
  | .error e => .error e
  | .ok male =>
    match loadNameList femaleLines with
    | .error e => .error e
    | .ok female =>
      match loadNameList lastLines with
      | .error e => .error e
      | .ok lastNames => .ok (male ++ female, lastNames)

/-- Embeds `get_first_name(gender)` (lines 102–113): the `gender`
argument is accepted but never read; the result is
`random.choice(FIRST_NAMES)` with the draw modelled by the supplied
index `i` reduced to a valid position. -/
def get_first_name (firstNames : List String) (gender : Option String)
    (i : Nat) : String :=
  firstNames.getD (i % firstNames.length) ""

/-- Embeds `get_last_name()` (lines 115–123). -/
def get_last_name (lastNames : List String) (j : Nat) : String :=
  lastNames.getD (j % lastNames.length) ""

/-- Embeds `get_full_name(gender)` (lines 125–136):
`f"{random.choice(FIRST_NAMES)} {random.choice(LAST_NAMES)}"`, with
`gender` accepted but never read. -/
def get_full_name (firstNames lastNames : List String)
    (gender : Option String) (i j : Nat) : String :=
  firstNames.getD (i % firstNames.length) "" ++ " " ++
    lastNames.getD (j % lastNames.length) ""

/-- C5 counterexample: from the source line `mARY 1 30`, the frequency
table built by `_load_names` stores the raw token `"mARY"` — not its
capitalized form `"Mary"` — so names stored in a loaded frequency table
are not normalized. -/
theorem table_name_not_capitalized :
    _load_names (fun _ => [["mARY", "1", "30"]])
        (fun s => if s = "30" then some 30 else none) [] "f" =
      .ok ([("mARY", 30)], [("f", [("mARY", 30)])]) ∧
      capitalize "mARY" = "Mary" ∧ ("mARY" : String) ≠ "Mary" :=
  ⟨rfl, rfl, by decide⟩

/-- Lemma: every name a successful `loadNameList` returns is the
capitalization of the first token of one of its lines. -/
theorem loadNameList_capitalized :
    ∀ (lines : List (List String)) (ns : List String),
      loadNameList lines = .ok ns →
      ∀ name ∈ ns, ∃ tok, name = capitalize tok := by
  intro lines
  induction lines with
  | nil =>
    intro ns h
    cases h
    intro name hmem
    cases hmem
  | cons parts rest ih =>
    intro ns h
    simp only [loadNameList] at h
    cases parts with
    | nil => cases h
    | cons tok more =>
      simp only [firstTokenCapitalized] at h
      cases hrest : loadNameList rest with
      | error e => rw [hrest] at h; cases h
      | ok ns' =>
        rw [hrest] at h
        cases h
        intro name hmem
        rcases List.mem_cons.mp hmem with hname | hname
        · exact ⟨tok, hname⟩
        · exact ih ns' hrest name hname

/-- C5 amended: the capitalization invariant holds for the lists
`_load_all_names` builds — `FIRST_NAMES` and `LAST_NAMES`, which every
public sampling entry point draws from: every name in them is the
capitalized form of its line's first token.  (The `_load_names` frequency
table, by contrast, stores the raw token: see the counterexample.) -/
theorem load_all_names_capitalized (ml fl ll : List (List String))
    (fn ln : List String) (h : _load_all_names ml fl ll = .ok (fn, ln)) :
    ∀ name ∈ fn ++ ln, ∃ tok, name = capitalize tok := by
  unfold _load_all_names at h
  cases h1 : loadNameList ml with
  | error e => rw [h1] at h; cases h
  | ok male =>
    rw [h1] at h
    cases h2 : loadNameList fl with
    | error e => rw [h2] at h; cases h
    | ok female =>
      rw [h2] at h
      cases h3 : loadNameList ll with
      | error e => rw [h3] at h; cases h
      | ok lastNames =>
        rw [h3] at h
        cases h
        intro name hmem
        rcases List.mem_append.mp hmem with hm | hm
        · rcases List.mem_append.mp hm with hm2 | hm2
          · exact loadNameList_capitalized ml male h1 name hm2
          · exact loadNameList_capitalized fl female h2 name hm2
        · exact loadNameList_capitalized ll ln h3 name hm

/-- C5 amended witness: the amended theorem applied to concrete one-line
files; the stored name `"Al"` is a capitalization image. -/
theorem load_all_names_capitalized_witness :
    ∃ tok, "Al" = capitalize tok :=
  load_all_names_capitalized [["aL"]] [["bo"]] [["cy"]] ["Al", "Bo"] ["Cy"]
    rfl "Al" (by simp)

/-- C10: `get_first_name` and `get_full_name` ignore their `gender`
argument entirely: under identical randomness state any two gender
arguments (`'male'`, `'female'` or `None`) give identical results, and
the first name is always drawn from the single combined male+female
list `FIRST_NAMES = male ++ female` built by `_load_all_names`. -/
theorem gender_argument_ignored (ml fl ll : List (List String))
    (fn ln : List String) (h : _load_all_names ml fl ll = .ok (fn, ln))
    (g₁ g₂ : Option String) (i j : Nat) :
    get_first_name fn g₁ i = get_first_name fn g₂ i ∧
      get_full_name fn ln g₁ i j = get_full_name fn ln g₂ i j ∧
      ∃ male female, loadNameList ml = .ok male ∧
        loadNameList fl = .ok female ∧ fn = male ++ female ∧
        (fn ≠ [] → get_first_name fn g₁ i ∈ male ++ female) := by
  refine ⟨rfl, rfl, ?_⟩
  unfold _load_all_names at h
  cases h1 : loadNameList ml with
  | error e => rw [h1] at h; cases h
  | ok male =>
    rw [h1] at h
    cases h2 : loadNameList fl with
    | error e => rw [h2] at h; cases h
    | ok female =>
      rw [h2] at h
      cases h3 : loadNameList ll with
      | error e => rw [h3] at h; cases h
      | ok lastNames =>
        rw [h3] at h
        cases h
        refine ⟨male, female, rfl, rfl, rfl, fun hne => ?_⟩
        have hlen : 0 < (male ++ female).length := List.length_pos.mpr hne
        have hmod : i % (male ++ female).length < (male ++ female).length :=
          Nat.mod_lt _ hlen
        unfold get_first_name
        rw [List.getD_eq_getElem _ "" hmod]
        exact List.getElem_mem _

/-- C10 witness: at a concrete loaded state, `gender='male'` and
`gender=None` give the same names, drawn from the combined list. -/
theorem gender_argument_ignored_witness :
    get_first_name ["Al", "Bo"] (some "male") 0 =
        get_first_name ["Al", "Bo"] none 0 ∧
      get_full_name ["Al", "Bo"] ["Cy"] (some "male") 0 0 =
        get_full_name ["Al", "Bo"] ["Cy"] none 0 0 ∧
      ∃ male female, loadNameList [["aL"]] = .ok male ∧
        loadNameList [["bo"]] = .ok female ∧
        (["Al", "Bo"] : List String) = male ++ female ∧
        ((["Al", "Bo"] : List String) ≠ [] →
          get_first_name ["Al", "Bo"] (some "male") 0 ∈ male ++ female) :=
  gender_argument_ignored [["aL"]] [["bo"]] [["cy"]] ["Al", "Bo"] ["Cy"]
    rfl (some "male") none 0 0

/-! ### Batch generation (lines 182–248) -/

/-- Embeds `generate_names_batch(batch_size)` (lines 182–198):
`np.random.choice` draws `batch_size` elements from each loaded list;
draw `k` of the batch starting at stream offset `off` uses the supplied
index pair `pick (off + k)`, each reduced to a valid position, and the
batch is the list of `f"{first} {last}"` strings. -/
def generate_names_batch (firstNames lastNames : List String)
    (pick : Nat → Nat × Nat) (off batch_size : Nat) : List String :=
  (List.range batch_size).map (fun k =>
    firstNames.getD ((pick (off + k)).1 % firstNames.length) "" ++ " " ++
      lastNames.getD ((pick (off + k)).2 % lastNames.length) "")

/-- Embeds the `while remaining > 0` loop of `generate_names`
(lines 211–215) with explicit fuel; each iteration yields one batch of
`min batch_size remaining` names and decrements `remaining` by that
amount.  With `batch_size ≥ 1` the loop runs at most `remaining` times,
so `remaining` units of fuel are never exhausted (with `batch_size = 0`
and `remaining > 0` the Python generator loops forever, a case the
claims exclude). -/
def generate_names_loop (firstNames lastNames : List String)
    (pick : Nat → Nat × Nat) (total : Nat) :
    Nat → Nat → Nat → List (List String)
  | 0, _, _ => []
  | fuel + 1, remaining, batch_size =>
    if 0 < remaining then
      generate_names_batch firstNames lastNames pick (total - remaining)
          (min batch_size remaining) ::
        generate_names_loop firstNames lastNames pick total fuel
          (remaining - min batch_size remaining) batch_size
    else []

/-- Embeds `generate_names(total, batch_size)` (lines 200–215): the lazy
generator materialised as the finite list of batches it yields. -/
def generate_names (firstNames lastNames : List String)
    (pick : Nat → Nat × Nat) (total batch_size : Nat) :
    List (List String) :=
  generate_names_loop firstNames lastNames pick total total total batch_size

/-- Lemma: a generated batch has exactly the requested size. -/
theorem generate_names_batch_length (firstNames lastNames : List String)
    (pick : Nat → Nat × Nat) (off n : Nat) :
    (generate_names_batch firstNames lastNames pick off n).length = n := by
  unfold generate_names_batch
  rw [List.length_map, List.length_range]

/-- Lemma: the batch-size structure of the generation loop.  With
`batch_size ≥ 1` and enough fuel, the loop yields
`⌈remaining / batch_size⌉` batches, their sizes sum to `remaining`, and
batch `k` has size `min batch_size (remaining - k * batch_size)`. -/
theorem generate_names_loop_sizes (firstNames lastNames : List String)
    (pick : Nat → Nat × Nat) (total batch_size : Nat)
    (hbs : 1 ≤ batch_size) :
    ∀ fuel remaining, remaining ≤ fuel →
      ((generate_names_loop firstNames lastNames pick total fuel remaining
          batch_size).map List.length).length =
          (remaining + batch_size - 1) / batch_size ∧
        ((generate_names_loop firstNames lastNames pick total fuel remaining
          batch_size).map List.length).sum = remaining ∧
        ∀ k, ((generate_names_loop firstNames lastNames pick total fuel
          remaining batch_size).map List.length).getD k 0 =
            min batch_size (remaining - k * batch_size) := by
  intro fuel
  induction fuel with
  | zero =>
    intro remaining hr
    have h0 : remaining = 0 := Nat.le_zero.mp hr
    subst h0
    refine ⟨?_, rfl, ?_⟩
    · simp only [generate_names_loop, List.map_nil, List.length_nil]
      exact (Nat.div_eq_of_lt (by omega)).symm
    · intro k
      simp only [generate_names_loop, List.map_nil, List.getD_nil]
      have hk : 0 - k * batch_size = 0 := by omega
      rw [hk]
      omega
  | succ n ih =>
    intro remaining hr
    by_cases hpos : 0 < remaining
    · simp only [generate_names_loop, if_pos hpos, List.map_cons,
        generate_names_batch_length]
      obtain ⟨ih1, ih2, ih3⟩ :=
        ih (remaining - min batch_size remaining) (by omega)
      refine ⟨?_, ?_, ?_⟩
      · rw [List.length_cons, ih1]
        by_cases hle : remaining ≤ batch_size
        · have h1 : remaining - min batch_size remaining = 0 := by omega
          rw [h1]
          rw [Nat.div_eq_of_lt (by omega)]
          have h2 : (remaining + batch_size - 1) / batch_size = 1 :=
            Nat.div_eq_of_lt_le (by omega) (by omega)
          omega
        · have h1 : remaining - min batch_size remaining =
              remaining - batch_size := by omega
          rw [h1]
          have h2 : remaining - batch_size + batch_size - 1 =
              remaining - 1 := by omega
          have h3 : remaining + batch_size - 1 =
              remaining - 1 + batch_size := by omega
          rw [h2, h3, Nat.add_div_right _ (by omega : 0 < batch_size)]
      · rw [List.sum_cons, ih2]
        omega
      · intro k
        cases k with
        | zero =>
          rw [List.getD_cons_zero]
          omega
        | succ m =>
          rw [List.getD_cons_succ, ih3 m, Nat.succ_mul]
          generalize m * batch_size = K
          omega
    · simp only [generate_names_loop, if_neg hpos, List.map_nil]
      have h0 : remaining = 0 := by omega
      subst h0
      refine ⟨?_, rfl, ?_⟩
      · simp only [List.length_nil]
        exact (Nat.div_eq_of_lt (by omega)).symm
      · intro k
        simp only [List.getD_nil]
        have hk : 0 - k * batch_size = 0 := by omega
        rw [hk]
        omega

/-- C6: for every `total ≥ 0` and every `batchSize ≥ 1`,
`generate_names(total, batchSize)` yields exactly
`⌈total/batchSize⌉` batches; batch `k` has size
`min batchSize (total - k*batchSize)` — i.e. `min(batchSize, remaining)`
at each step — the sizes sum to `total`, and the materialised sequence
is finite of exactly that length, so nothing follows once exhausted. -/
theorem generate_names_yields_ceil_batches (firstNames lastNames : List String)
    (pick : Nat → Nat × Nat) (total batch_size : Nat)
    (hbs : 1 ≤ batch_size) :
    ((generate_names firstNames lastNames pick total batch_size).map
        List.length).length = (total + batch_size - 1) / batch_size ∧
      ((generate_names firstNames lastNames pick total batch_size).map
        List.length).sum = total ∧
      ∀ k, ((generate_names firstNames lastNames pick total batch_size).map
        List.length).getD k 0 = min batch_size (total - k * batch_size) :=
  generate_names_loop_sizes firstNames lastNames pick total batch_size hbs
    total total (le_refl total)

/-- C6 witness: the spec's scenario `generate(total=5, batchSize=2)`
yields exactly 3 batches of sizes `[2, 2, 1]`, in that order. -/
theorem generate_names_yields_ceil_batches_witness :
    ((generate_names ["Al"] ["Ba"] (fun _ => (0, 0)) 5 2).map
        List.length) = [2, 2, 1] ∧
      ((generate_names ["Al"] ["Ba"] (fun _ => (0, 0)) 5 2).map
        List.length).length = 3 ∧
      ((generate_names ["Al"] ["Ba"] (fun _ => (0, 0)) 5 2).map
        List.length).sum = 5 := by
  have h := generate_names_yields_ceil_batches ["Al"] ["Ba"]
    (fun _ => (0, 0)) 5 2 (by norm_num)
  exact ⟨rfl, by rw [h.1], h.2.1⟩

/-! ### C1: `generate_names_to_file` (lines 217–248) -/

/-- Embeds `generate_names_to_file(total, output_file, batch_size)` as
the list of lines of the output file it leaves behind.  The body has two
write passes over the same `total`: the `while remaining > 0` loop
(lines 238–243) writes every batch to the file opened in `'w'` mode
(truncating), and then the trailing
`for batch in generate_names(total, batch_size)` loop (lines 246–248)
re-opens the file in `'a'` mode and appends a second, freshly generated
run of batches (`pick2` stands for the advanced state of the random
stream).  Each `f.write('\n'.join(names) + '\n')` contributes exactly
`len(names)` lines. -/
def generate_names_to_file_lines (firstNames lastNames : List String)
    (pick pick2 : Nat → Nat × Nat) (total batch_size : Nat) :
    List String :=
  (generate_names firstNames lastNames pick total batch_size).flatten ++
    (generate_names firstNames lastNames pick2 total batch_size).flatten

/-- Supporting fact for C1: for every `total` and every `batchSize ≥ 1`
the output file ends up with `2 * total` lines — each of the two write
passes contributes `total`. -/
theorem generate_names_to_file_line_count (firstNames lastNames : List String)
    (pick pick2 : Nat → Nat × Nat) (total batch_size : Nat)
    (hbs : 1 ≤ batch_size) :
    (generate_names_to_file_lines firstNames lastNames pick pick2 total
      batch_size).length = 2 * total := by
  unfold generate_names_to_file_lines
  rw [List.length_append, List.length_flatten, List.length_flatten]
  unfold generate_names
  rw [(generate_names_loop_sizes firstNames lastNames pick total batch_size
        hbs total total (le_refl total)).2.1,
    (generate_names_loop_sizes firstNames lastNames pick2 total batch_size
        hbs total total (le_refl total)).2.1]
  omega

/-- C1: evaluation of `generate_names_to_file` at the failing input
`total = 1`, `batch_size = 1`: the output file holds 2 full-name lines
where the claim — and the function's own docstring intent, matched by the
single-pass near-duplicate driver script `generate_names.py` — requires
exactly `total = 1`, because the trailing duplicated loop appends a
second generation run after the `while` loop already wrote everything.
The boundary case does hold: `total = 0` leaves an empty file. -/
theorem generate_names_to_file_writes_twice :
    (generate_names_to_file_lines ["Al"] ["Ba"] (fun _ => (0, 0))
        (fun _ => (1, 0)) 1 1).length = 2 ∧
      generate_names_to_file_lines ["Al"] ["Ba"] (fun _ => (0, 0))
        (fun _ => (1, 0)) 0 1 = [] := ⟨rfl, rfl⟩
